import Mathlib

/- Shallow embedding of the z3 sequence-theory solver core implemented in
   src/src/smt/theory_seq.cpp (the only source file of this repository).
   Terms are modelled by the inductive `SExpr`; the host's e-nodes by `ENode`;
   dependency objects (`enode_pair_dependency`) by `Dep`.  The backtrackable
   sub-stores (`solution_map`, `exclusion_table`, the pending-equation frame
   stack `m_lhs`/`m_rhs`/`m_deps`, the incompleteness flag, the lemma queue
   `m_axioms` with its cursor `m_axioms_head`, and the generic trail stack
   `m_trail_stack`) are modelled by `SolutionMap`, `ExclusionTable` and
   `ThState`.  External collaborators of the core (the term rewriter
   `m_rewrite` and the structural equality reducer `seq_rewriter::reduce_eq`)
   are taken as parameters where a function of the core calls them. -/

/-- Skolem tags.  `theory_seq` names its skolems with the interned symbols
"prefix" (`preT`), "suffix" (`sufT`), "left" (`leftT`), "right" (`rightT`),
"contains_left" (`cLeftT`), "contains_right" (`cRightT`), "first" (`firstT`)
and "last" (`lastT`); each constructor stands for one of those symbols. -/
inductive SkTag
  | preT
  | sufT
  | leftT
  | rightT
  | cLeftT
  | cRightT
  | firstT
  | lastT
deriving DecidableEq

/-- Terms: the host `expr` nodes restricted to the shapes theory_seq.cpp
inspects (`is_concat`, `is_string`, `is_empty`, `is_unit`, `is_prefix`,
`is_suffix`, `is_contains`, `is_index`, `is_replace`, `is_extract`,
`is_in_re`, `is_skolem`, uninterpreted constants) or builds (`mk_concat`,
`mk_empty`, `mk_string`, `mk_length`, skolem applications with one or two
arguments, integer literals, `mk_eq`, `mk_not`, the two- and three-argument
`mk_or`, the three-argument `mk_and`, and the constant true).  String
literal contents are modelled as lists of code units. -/
inductive SExpr
  | var (n : Nat)
  | emp
  | str (s : List Nat)
  | unitSeq (e : SExpr)
  | concat (a b : SExpr)
  | len (e : SExpr)
  | pre (a b : SExpr)
  | suf (a b : SExpr)
  | contains (a b : SExpr)
  | indexof (s t : SExpr)
  | replace (a s t : SExpr)
  | extract (s i l : SExpr)
  | inRe (s r : SExpr)
  | skolem1 (tag : SkTag) (a : SExpr)
  | skolem2 (tag : SkTag) (a b : SExpr)
  | intLit (i : Int)
  | eqE (a b : SExpr)
  | notE (a : SExpr)
  | or2 (a b : SExpr)
  | or3 (a b c : SExpr)
  | and3 (a b c : SExpr)
  | trueE
deriving DecidableEq

/-- E-nodes: the host's congruence-closure nodes; `owner` models
`enode::get_owner()` and `id` distinguishes distinct nodes of one class. -/
structure ENode where
  id : Nat
  owner : SExpr
deriving DecidableEq

/-- Modelled from the spec: `enode_pair_dependency` values (the dependency
manager of spec section 4.1 lives outside this repository's src/).  A
dependency is a leaf e-node pair, a join, or the null dependency. -/
inductive Dep
  | empty
  | leaf (a b : ENode)
  | join (d1 d2 : Dep)
deriving DecidableEq

/-- Modelled from the spec: `mk_join` of the dependency manager; joining
with the null dependency returns the other argument unchanged. -/
def mkJoin (d1 d2 : Dep) : Dep :=
  match d1, d2 with
  | .empty, d => d
  | d, .empty => d
  | d, e => .join d e

/-- Numeric code of a skolem tag, for the term-order serialization. -/
def SkTag.code : SkTag → Nat
  | .preT => 0
  | .sufT => 1
  | .leftT => 2
  | .rightT => 3
  | .cLeftT => 4
  | .cRightT => 5
  | .firstT => 6
  | .lastT => 7

/-- Preorder serialization of a term.  It serves as a stand-in for the host's
hash-consing identifier `expr::get_id()` when `exclusion_table::update`
orders the two members of a pair: any fixed total order on terms yields the
same observable unordered-pair semantics. -/
def SExpr.ser : SExpr → List Nat
  | .var n => [0, n]
  | .emp => [1]
  | .str s => 2 :: s.length :: s
  | .unitSeq e => 3 :: e.ser
  | .concat a b => 4 :: (a.ser ++ b.ser)
  | .len e => 5 :: e.ser
  | .pre a b => 6 :: (a.ser ++ b.ser)
  | .suf a b => 7 :: (a.ser ++ b.ser)
  | .contains a b => 8 :: (a.ser ++ b.ser)
  | .indexof a b => 9 :: (a.ser ++ b.ser)
  | .replace a b c => 10 :: (a.ser ++ b.ser ++ c.ser)
  | .extract a b c => 11 :: (a.ser ++ b.ser ++ c.ser)
  | .inRe a b => 12 :: (a.ser ++ b.ser)
  | .skolem1 t a => 13 :: t.code :: a.ser
  | .skolem2 t a b => 14 :: t.code :: (a.ser ++ b.ser)
  | .intLit i => [15, i.toNat, (-i).toNat]
  | .eqE a b => 16 :: (a.ser ++ b.ser)
  | .notE a => 17 :: a.ser
  | .or2 a b => 18 :: (a.ser ++ b.ser)
  | .or3 a b c => 19 :: (a.ser ++ b.ser ++ c.ser)
  | .and3 a b c => 20 :: (a.ser ++ b.ser ++ c.ser)
  | .trueE => [21]

/-- Strict lexicographic order on serializations (stand-in for comparing
`get_id()` values). -/
def lexLt : List Nat → List Nat → Bool
  | [], [] => false
  | [], _ :: _ => true
  | _ :: _, [] => false
  | a :: as, b :: bs => if a < b then true else if b < a then false else lexLt as bs

/-- Pair normalization of `exclusion_table::update`: `if (e->get_id() >
r->get_id()) std::swap(e, r);` puts the smaller term first. -/
def normPair (e r : SExpr) : SExpr × SExpr :=
  if lexLt r.ser e.ser then (r, e) else (e, r)

/-- `theory_seq::is_var`: an uninterpreted constant or a skolem term. -/
def is_var : SExpr → Bool
  | .var _ => true
  | .skolem1 _ _ => true
  | .skolem2 _ _ _ => true
  | _ => false

/-- The while-loops of `theory_seq::occurs` that strip the "left"/"right"
skolem selector layers (`is_left_select` / `is_right_select`) off a term. -/
def strip : SExpr → SExpr
  | .skolem1 t a => if t = SkTag.leftT ∨ t = SkTag.rightT then strip a else .skolem1 t a
  | .skolem2 t a b => if t = SkTag.leftT ∨ t = SkTag.rightT then strip a else .skolem2 t a b
  | e => e

/-- `theory_seq::occurs(a, b)` (lines 378-395): strip the selectors off `a`;
if `b` is a concatenation recurse into both children; otherwise strip the
selectors off `b` and compare.  Note the concatenation test inspects `b`
before `b`'s selector layers are stripped. -/
def occurs : SExpr → SExpr → Bool
  | a, .concat e1 e2 => occurs (strip a) e1 || occurs (strip a) e2
  | a, b => strip a == strip b

/-- Spec-side notion for claim C3: `v` appears in `t` along some path built
from concatenation children and left/right skolem-selector arguments, in any
nesting order. -/
def appearsSel (v : SExpr) : SExpr → Bool
  | .concat a b => v == .concat a b || appearsSel v a || appearsSel v b
  | .skolem1 tg a =>
      v == .skolem1 tg a ||
        ((tg == SkTag.leftT || tg == SkTag.rightT) && appearsSel v a)
  | .skolem2 tg a b =>
      v == .skolem2 tg a b ||
        ((tg == SkTag.leftT || tg == SkTag.rightT) && appearsSel v a)
  | t => v == t

/-- The concat-atom decomposition that `occurs` effectively walks: split
nested concatenations (above selector layers only) into their leaves. -/
def concatAtoms : SExpr → List SExpr
  | .concat a b => concatAtoms a ++ concatAtoms b
  | e => [e]

/-- Map type of `solution_map::m_map` (term to replacement and witness). -/
def SMap : Type := SExpr → Option (SExpr × Dep)

/-- Pointwise insertion (`obj_map::insert`, overwriting semantics). -/
def mapInsert (m : SMap) (k : SExpr) (v : SExpr × Dep) : SMap :=
  fun x => if x = k then some v else m x

/-- Pointwise removal (`obj_map::remove`). -/
def mapErase (m : SMap) (k : SExpr) : SMap :=
  fun x => if x = k then none else m x

/-- Trail tags of `solution_map` (`enum map_update { INS, DEL };`). -/
inductive MapUpd
  | INS
  | DEL
deriving DecidableEq

/-- `theory_seq::solution_map`: the backtrackable map `m_map` together with
the parallel trail arrays `m_updates`/`m_lhs`/`m_rhs`/`m_deps` (merged here
into one list of tuples, newest entry first) and the scope marks `m_limit`
(newest mark first). -/
structure SolutionMap where
  map : SMap
  updates : List (MapUpd × SExpr × SExpr × Dep)
  limit : List Nat

/-- `solution_map::add_trail`. -/
def SolutionMap.add_trail (s : SolutionMap) (op : MapUpd) (l r : SExpr) (d : Dep) :
    SolutionMap :=
  { s with updates := (op, l, r, d) :: s.updates }

/-- `solution_map::update` (lines 28-37): trail a DEL record for a prior
entry, overwrite the map, trail an INS record. -/
def SolutionMap.update (s : SolutionMap) (e r : SExpr) (d : Dep) : SolutionMap :=
  match s.map e with
  | some v =>
      let s1 := s.add_trail .DEL e v.1 v.2
      let s2 := { s1 with map := mapInsert s1.map e (r, d) }
      s2.add_trail .INS e r d
  | none =>
      let s2 := { s with map := mapInsert s.map e (r, d) }
      s2.add_trail .INS e r d

/-- The while-loop of `solution_map::find` (lines 46-60).  The C++ loop is
unbounded and relies on the acyclicity invariant of the solution map (spec
section 4.2); `fuel` bounds the walk here.  Returns the final term, the
accumulated join of witnesses, and the number of edges traversed. -/
def SolutionMap.findAux (m : SMap) : Nat → SExpr → Dep → Nat → SExpr × Dep × Nat
  | 0, cur, d, n => (cur, d, n)
  | fuel + 1, cur, d, n =>
      match m cur with
      | none => (cur, d, n)
      | some (r, d2) => SolutionMap.findAux m fuel r (mkJoin d d2) (n + 1)

/-- `solution_map::find`: walk the chain and, when more than one edge was
traversed, path-compress by `update`-ing the original key (the comment in
the source says "path compression for original key only"). -/
def SolutionMap.find (s : SolutionMap) (fuel : Nat) (e : SExpr) :
    SExpr × Dep × SolutionMap :=
  match SolutionMap.findAux s.map fuel e Dep.empty 0 with
  | (r, d, n) => if 1 < n then (r, d, s.update e r d) else (r, d, s)

/-- Undo a single solution-map trail record, as in the loop body of
`solution_map::pop_scope` (lines 65-73): an INS record removes the key, a
DEL record re-inserts the overwritten value. -/
def undoEntry (m : SMap) : MapUpd × SExpr × SExpr × Dep → SMap
  | (.INS, l, _, _) => mapErase m l
  | (.DEL, l, r, d) => mapInsert m l (r, d)

/-- Replay solution-map trail records newest-first (the downward loop of
`solution_map::pop_scope`). -/
def undoMapFold : List (MapUpd × SExpr × SExpr × Dep) → SMap → SMap
  | [], m => m
  | e :: tl, m => undoMapFold tl (undoEntry m e)

/-- `solution_map::pop_scope` for one scope (lines 62-79): read the saved
mark, replay the newer trail records in LIFO order, truncate the trail and
the mark stack. -/
def SolutionMap.popScope1 (s : SolutionMap) : SolutionMap :=
  match s.limit with
  | [] => s
  | start :: rest =>
      let k := s.updates.length - start
      { map := undoMapFold (s.updates.take k) s.map,
        updates := s.updates.drop k,
        limit := rest }

/-- Modelled from the spec: `solution_map::push_scope` is declared in
theory_seq.h, which is not under src/.  Per the spec's scope-stack model
(sections 3 and 4.2) a push records the current trail size on `m_limit`,
which is exactly what `pop_scope`'s use of `m_limit` requires. -/
def SolutionMap.pushScope (s : SolutionMap) : SolutionMap :=
  { s with limit := s.updates.length :: s.limit }

/-- The chain of solution-map edges reachable from `e` within `fuel` hops; a
specification-side description of the walk that `find` performs. -/
def chainFrom (m : SMap) : Nat → SExpr → List (SExpr × Dep)
  | 0, _ => []
  | fuel + 1, e =>
      match m e with
      | none => []
      | some (r, d) => (r, d) :: chainFrom m fuel r

/-- `theory_seq::exclusion_table`: the pair table `m_table` (as its
characteristic function) with the parallel insertion trail `m_lhs`/`m_rhs`
(merged into one list of normalized pairs, oldest first, mirroring
push_back order) and scope marks `m_limit` (newest first). -/
structure ExclusionTable where
  table : SExpr × SExpr → Bool
  entries : List (SExpr × SExpr)
  limit : List Nat

/-- `exclusion_table::update` (lines 88-97): normalize the pair by id order,
and insert it (recording it on the trail) unless the two terms are equal or
the pair is already present. -/
def ExclusionTable.update (t : ExclusionTable) (e r : SExpr) : ExclusionTable :=
  let q := normPair e r
  if q.1 = q.2 then t
  else if t.table q then t
  else { t with
         entries := t.entries ++ [q],
         table := fun x => if x = q then true else t.table x }

/-- Modelled from the spec: `exclusion_table::contains` is declared in
theory_seq.h, which is not under src/.  Per spec section 4.3 it is the
membership test of the unordered pair, i.e. lookup of the normalized pair. -/
def ExclusionTable.containsPair (t : ExclusionTable) (e r : SExpr) : Bool :=
  t.table (normPair e r)

/-- Erase one normalized pair from the table (loop body of
`exclusion_table::pop_scope`). -/
def eraseP (f : SExpr × SExpr → Bool) (p : SExpr × SExpr) : SExpr × SExpr → Bool :=
  fun x => if x = p then false else f x

/-- Erase a list of pairs front to back (the forward erase loop of
`exclusion_table::pop_scope`, lines 102-104). -/
def eraseFold : List (SExpr × SExpr) → (SExpr × SExpr → Bool) → (SExpr × SExpr → Bool)
  | [], f => f
  | p :: tl, f => eraseFold tl (eraseP f p)

/-- `exclusion_table::pop_scope` for one scope (lines 99-108). -/
def ExclusionTable.popScope1 (t : ExclusionTable) : ExclusionTable :=
  match t.limit with
  | [] => t
  | start :: rest =>
      { table := eraseFold (t.entries.drop start) t.table,
        entries := t.entries.take start,
        limit := rest }

/-- Modelled from the spec: `exclusion_table::push_scope` is declared in
theory_seq.h, which is not under src/.  As for the solution map, a push
records the current trail size on `m_limit`. -/
def ExclusionTable.pushScope (t : ExclusionTable) : ExclusionTable :=
  { t with limit := t.entries.length :: t.limit }

/-- Records of the generic trail stack `m_trail_stack`, restricted to the
record kinds theory_seq.cpp pushes: `value_trail` of `m_incomplete`,
`value_trail` of `m_axioms_head`, `push_back_vector` of `m_ineqs`, and
`push_back_vector` of `m_axioms`. -/
inductive TrailRec
  | valIncomplete (old : Bool)
  | valAxHead (old : Nat)
  | pbIneqs
  | pbAxq
deriving DecidableEq

/-- The solver state of `theory_seq` that theory_seq.cpp mutates: solution
map `m_rep`, exclusion table `m_exclude`, the stack of pending-equation
frames `m_lhs`/`m_rhs`/`m_deps` (parallel arrays merged into one frame of
triples; head of `eqs` is the current frame `m_lhs.back()`), the inequation
list `m_ineqs`, the lemma queue `m_axioms` (field `axq`) with its cursor
`m_axioms_head` (field `axqHead`), the incompleteness flag `m_incomplete`,
and the generic trail stack `m_trail_stack` (records `recs`, newest first,
and scope marks `marks`, newest first). -/
structure ThState where
  rep : SolutionMap
  exclude : ExclusionTable
  eqs : List (List (SExpr × SExpr × Dep))
  ineqs : List SExpr
  axq : List SExpr
  axqHead : Nat
  incomplete : Bool
  recs : List TrailRec
  marks : List Nat

/-- Undo one generic trail record (`value_trail::undo` restores the saved
value; `push_back_vector::undo` pops the last element). -/
def applyUndo : TrailRec → ThState → ThState
  | .valIncomplete b, s => { s with incomplete := b }
  | .valAxHead n, s => { s with axqHead := n }
  | .pbIneqs, s => { s with ineqs := s.ineqs.dropLast }
  | .pbAxq, s => { s with axq := s.axq.dropLast }

/-- Replay generic trail records newest-first. -/
def undoList : List TrailRec → ThState → ThState
  | [], s => s
  | r :: tl, s => undoList tl (applyUndo r s)

/-- Effect of `undoList` on `ineqs` alone. -/
def undoIneqs : List TrailRec → List SExpr → List SExpr
  | [], i => i
  | .pbIneqs :: tl, i => undoIneqs tl i.dropLast
  | _ :: tl, i => undoIneqs tl i

/-- Effect of `undoList` on `axq` alone. -/
def undoAxq : List TrailRec → List SExpr → List SExpr
  | [], a => a
  | .pbAxq :: tl, a => undoAxq tl a.dropLast
  | _ :: tl, a => undoAxq tl a

/-- Effect of `undoList` on `incomplete` alone. -/
def undoInc : List TrailRec → Bool → Bool
  | [], c => c
  | .valIncomplete b :: tl, _ => undoInc tl b
  | _ :: tl, c => undoInc tl c

/-- Effect of `undoList` on `axqHead` alone. -/
def undoAH : List TrailRec → Nat → Nat
  | [], h => h
  | .valAxHead n :: tl, _ => undoAH tl n
  | _ :: tl, h => undoAH tl h

/-- `theory_seq::set_incomplete` (lines 575-581): when the flag is not yet
set, push a `value_trail` holding the current (false) value and set it. -/
def set_incomplete (s : ThState) : ThState :=
  if s.incomplete then s
  else { s with recs := TrailRec.valIncomplete s.incomplete :: s.recs,
                incomplete := true }

/-- The recognizer disjunction of `theory_seq::internalize_term` (lines
499-506): heads for which the term is NOT reported incomplete. -/
def supportedHead : SExpr → Bool
  | .concat _ _ => true
  | .str _ => true
  | .emp => true
  | .unitSeq _ => true
  | .suf _ _ => true
  | .pre _ _ => true
  | .contains _ _ => true
  | .skolem1 _ _ => true
  | .skolem2 _ _ _ => true
  | _ => false

/-- The incompleteness side effect of `theory_seq::internalize_term` (lines
473-510): any term whose head is none of concat, string, empty, unit,
suffix, prefix, contains, skolem triggers `set_incomplete`.  (The host only
routes sequence-family terms to this callback; the e-node and boolean-var
bookkeeping of the function lives in the host and carries no core state.) -/
def internalize_term (s : ThState) (t : SExpr) : ThState :=
  if supportedHead t then s else set_incomplete s

/-- `theory_seq::new_eq_len_concat` (lines 677-708).  The function returns
immediately unless `m_util.is_seq` holds, then initializes `func_decl*
f_len = 0;` which is never assigned (the source marks the extraction of the
length function as TBD), so the guard `if (!f_len) return;` always takes
the early return and the e-node-walking loop below it is unreachable.  The
function therefore never changes any core state. -/
def new_eq_len_concat (s : ThState) (_n1 _n2 : ENode) : ThState :=
  s

/-- `theory_seq::new_eq_eh` (lines 895-906): for distinct e-nodes, append
the owners as a pending equation tagged with the leaf dependency of the
pair to the current frame, then call `new_eq_len_concat` both ways. -/
def new_eq_eh (s : ThState) (n1 n2 : ENode) : ThState :=
  if n1 = n2 then s
  else
    let s1 := { s with
      eqs := (s.eqs.headD [] ++ [(n1.owner, n2.owner, Dep.leaf n1 n2)]) :: s.eqs.tail }
    new_eq_len_concat (new_eq_len_concat s1 n1 n2) n2 n1

/-- `theory_seq::new_diseq_eh` (lines 908-914): trail a push_back record,
record the equality atom on `m_ineqs`, add the pair to the exclusion
table. -/
def new_diseq_eh (s : ThState) (n1 n2 : ENode) : ThState :=
  { s with recs := TrailRec.pbIneqs :: s.recs,
           ineqs := s.ineqs ++ [SExpr.eqE n1.owner n2.owner],
           exclude := s.exclude.update n1.owner n2.owner }

/-- `theory_seq::create_axiom` (lines 656-659): trail a push_back record and
append the lemma to `m_axioms`. -/
def create_ax (s : ThState) (e : SExpr) : ThState :=
  { s with recs := TrailRec.pbAxq :: s.recs, axq := s.axq ++ [e] }

/-- State effect of `theory_seq::propagate` (lines 646-654): assert the
queued lemmas to the host and advance `m_axioms_head` to the queue size
(if the host becomes inconsistent mid-loop the cursor stops earlier; either
way it is restored on pop by the `value_trail` pushed at scope entry). -/
def propagateTick (s : ThState) : ThState :=
  { s with axqHead := s.axq.length }

/-- The operations of theory_seq.cpp that mutate the backtrackable state
inside one scope; claim C2 quantifies over arbitrary sequences of these. -/
inductive Op
  | mapUpdate (e r : SExpr) (d : Dep)
  | mapFind (fuel : Nat) (e : SExpr)
  | newEq (n1 n2 : ENode)
  | newDiseq (n1 n2 : ENode)
  | setIncomplete (t : SExpr)
  | createAx (e : SExpr)
  | propagate
  | internalize (t : SExpr)

/-- Dispatch one operation on the solver state. -/
def applyOp (s : ThState) : Op → ThState
  | .mapUpdate e r d => { s with rep := s.rep.update e r d }
  | .mapFind fuel e => { s with rep := (s.rep.find fuel e).2.2 }
  | .newEq n1 n2 => new_eq_eh s n1 n2
  | .newDiseq n1 n2 => new_diseq_eh s n1 n2
  | .setIncomplete _ => set_incomplete s
  | .createAx e => create_ax s e
  | .propagate => propagateTick s
  | .internalize t => internalize_term s t

/-- `theory_seq::push_scope_eh` (lines 916-932): push scopes on the solution
map, the exclusion table and the generic trail stack, push a `value_trail`
for `m_axioms_head`, and push a copy of the current equation frame. -/
def push_scope_eh (s : ThState) : ThState :=
  { s with rep := s.rep.pushScope,
           exclude := s.exclude.pushScope,
           marks := s.recs.length :: s.marks,
           recs := TrailRec.valAxHead s.axqHead :: s.recs,
           eqs := s.eqs.headD [] :: s.eqs }

/-- `theory_seq::pop_scope_eh` for one scope (lines 934-950): replay the
generic trail down to the saved mark, pop the solution map and exclusion
table scopes, and drop the copied equation frame. -/
def pop_scope_eh (s : ThState) : ThState :=
  let mark := s.marks.headD 0
  let k := s.recs.length - mark
  let s1 := undoList (s.recs.take k) s
  { s1 with recs := s1.recs.drop k,
            marks := s1.marks.tail,
            rep := s1.rep.popScope1,
            exclude := s1.exclude.popScope1,
            eqs := s1.eqs.tail }

/-- The state built by the `theory_seq` constructor (lines 117-142): all
stores empty, one empty pending-equation frame pushed. -/
def initState : ThState :=
  { rep := ⟨fun _ => none, [], []⟩,
    exclude := ⟨fun _ => false, [], []⟩,
    eqs := [[]],
    ineqs := [],
    axq := [],
    axqHead := 0,
    incomplete := false,
    recs := [],
    marks := [] }

/-- `final_check_status` return codes of `theory::final_check_eh`. -/
inductive FinalCheckStatus
  | FC_CONTINUE
  | FC_GIVEUP
  | FC_DONE
deriving DecidableEq

/-- The observations `theory_seq::final_check_eh` dispatches on, in source
order: the result of `check_ineqs()` (true means no refutation), the result
of `simplify_and_solve_eqs()`, `ctx.inconsistent()` sampled after it, the
result of `branch_variable()`, `ctx.inconsistent()` sampled after
`split_variable()`, the size of the current equation frame
`m.size(m_lhs.back())`, and `m_incomplete`. -/
structure FCPhases where
  check_ineqs_ok : Bool
  simp_progress : Bool
  incons1 : Bool
  branch_progress : Bool
  incons2 : Bool
  pending : Nat
  incomplete : Bool

/-- `theory_seq::split_variable` (lines 276-279): the reserved heavier
case-split; its body is `return false;`. -/
def split_variable : Bool := false

/-- `theory_seq::final_check_eh` (lines 153-178). -/
def final_check_eh (p : FCPhases) : FinalCheckStatus :=
  if p.check_ineqs_ok = false then .FC_CONTINUE
  else if p.simp_progress = true then .FC_CONTINUE
  else if p.incons1 = true then .FC_CONTINUE
  else if p.branch_progress = true then .FC_CONTINUE
  else if split_variable = true then .FC_CONTINUE
  else if p.incons2 = true then .FC_CONTINUE
  else if 0 < p.pending ∨ p.incomplete = true then .FC_GIVEUP
  else .FC_DONE

/-- `theory_seq::check_ineqs` (lines 180-194), with `canonize` (which calls
the external rewriter) taken as a parameter returning the canonized term
and the accumulated canonicalization witnesses.  Returns the boolean result
of the function and, when some atom canonizes to true, the conflict report
of `propagate_lit(eqs, ctx.get_literal(a))`: the refuted atom's literal
together with the witnesses.  The loop only reads `m_ineqs`; the list is
never modified. -/
def check_ineqs (canon : SExpr → SExpr × Dep) : List SExpr → Bool × Option (SExpr × Dep)
  | [] => (true, none)
  | a :: rest =>
      if (canon a).1 = SExpr.trueE then (false, some (a, (canon a).2))
      else check_ineqs canon rest

/-- Result of `theory_seq::simplify_eq`: a conflict raised through
`set_conflict` with the indicated dependency, no progress (`return false`),
or progress with the listed subproblems pushed onto the current equation
frame (`return true`; the caller `pre_process_eqs` then removes the
original equation). -/
inductive SimpResult
  | conflict (d : Dep)
  | noProgress
  | subProblems (subs : List (SExpr × SExpr × Dep))
deriving DecidableEq

/-- `theory_seq::simplify_eq` (lines 324-354), with `canonize` and the
structural equality reducer `seq_rewriter::reduce_eq` (external to src/)
taken as parameters.  `canon` returns a canonized term and its witnesses;
`reduce` returns `none` when the equality is structurally inconsistent and
otherwise the list of subproblem pairs (the source keeps two parallel
vectors of equal size).  Mirrors the source's comparison of the reducer
output against the ORIGINAL arguments `l` and `r`:
`lhs.size() == 1 && l == lhs[0].get() && rhs.size() == 1 && r == rhs[0].get()`. -/
def simplify_eq (canon : SExpr → SExpr × Dep)
    (reduce : SExpr → SExpr → Option (List (SExpr × SExpr)))
    (l r : SExpr) (deps : Dep) : SimpResult :=
  let lh := canon l
  let rh := canon r
  let dj := mkJoin (mkJoin deps lh.2) rh.2
  match reduce lh.1 rh.1 with
  | none => .conflict dj
  | some pairs =>
      match pairs with
      | [q] =>
          if l = q.1 ∧ r = q.2 then .noProgress
          else .subProblems [(q.1, q.2, dj)]
      | _ => .subProblems (pairs.map fun q => (q.1, q.2, dj))

/-- `theory_seq::assume_equality` (lines 260-274): if the pair is in the
exclusion table return false (no split); otherwise propose the equality to
the host via `ctx.assume_eq` and return true. -/
def assume_equality (excl : ExclusionTable) (l r : SExpr) : Bool :=
  !(excl.containsPair l r)

/-- The inner string-prefix candidates of `find_branch_candidate` (lines
242-251): for a string-literal atom, each proper nonempty prefix, always
concatenated onto the accumulated `v0` (which is initially the empty
sequence, so the guard `if (v0)` is always taken). -/
def preCands (v0 : SExpr) : SExpr → List SExpr
  | .str s => (List.range' 1 (s.length - 1)).map fun k => .concat v0 (.str (s.take k))
  | _ => []

/-- Try a list of candidates in order against `assume_equality`, stopping at
the first accepted one; returns whether one was accepted and the list of
candidates examined (a ghost trace; the source has no such return value). -/
def tryList (excl : ExclusionTable) (l : SExpr) : List SExpr → Bool × List SExpr
  | [] => (false, [])
  | c :: cs =>
      if assume_equality excl l c then (true, [c])
      else
        match tryList excl l cs with
        | (b, cs') => (b, c :: cs')

/-- The `j`-loop of `theory_seq::find_branch_candidate` (lines 238-256):
at each atom `rs[j]`, first the occurs check — on a hit the WHOLE function
returns false — then the string-prefix candidates, then the accumulated
concatenation candidate `v0` (which is `rs[0]` when `j = 0` and otherwise
`concat` of the previous `v0` with `rs[j]`).  Returns the result and the
ghost trace of candidates examined. -/
def fbcLoop (excl : ExclusionTable) (l : SExpr) :
    List SExpr → Nat → SExpr → Bool × List SExpr
  | [], _, _ => (false, [])
  | rj :: rest, j, v0 =>
      if occurs l rj then (false, [])
      else
        match tryList excl l (preCands v0 rj) with
        | (true, att) => (true, att)
        | (false, att) =>
            let v0' := if j = 0 then rj else .concat v0 rj
            if assume_equality excl l v0' then (true, att ++ [v0'])
            else
              match fbcLoop excl l rest (j + 1) v0' with
              | (b, att') => (b, att ++ v0' :: att')

/-- `theory_seq::find_branch_candidate` (lines 224-258): nothing for a
non-variable head; otherwise the empty sequence first, then the `j`-loop.
Returns the result and the ghost trace of candidates examined. -/
def find_branch_candidate (excl : ExclusionTable) (l : SExpr) (rs : List SExpr) :
    Bool × List SExpr :=
  if is_var l = false then (false, [])
  else if assume_equality excl l .emp then (true, [.emp])
  else
    match fbcLoop excl l rs 0 .emp with
    | (b, att) => (b, .emp :: att)

/-- Spec-side candidate enumeration of claim C4 (spec section 4.6, items
1-3): the empty sequence, and per opposite-side atom its string prefixes
followed by the growing concatenation — with no occurs-check truncation. -/
def candidatesFull : List SExpr → Nat → SExpr → List SExpr
  | [], _, _ => []
  | rj :: rest, j, v0 =>
      let v0' := if j = 0 then rj else .concat v0 rj
      preCands v0 rj ++ v0' :: candidatesFull rest (j + 1) v0'

/-- The candidate enumeration the code actually performs: like
`candidatesFull` but truncated at the first atom on which `occurs` fires. -/
def candidatesGuarded (l : SExpr) : List SExpr → Nat → SExpr → List SExpr
  | [], _, _ => []
  | rj :: rest, j, v0 =>
      if occurs l rj then []
      else
        let v0' := if j = 0 then rj else .concat v0 rj
        preCands v0 rj ++ v0' :: candidatesGuarded l rest (j + 1) v0'

/-- All elements of a list up to and including the first one satisfying
`p`; the shape of the examination trace when blocked candidates are merely
skipped. -/
def takeThroughFirst (p : SExpr → Bool) : List SExpr → List SExpr
  | [] => []
  | c :: cs => if p c then [c] else c :: takeThroughFirst p cs

/-- The claim's skip rule for a branching candidate (spec section 4.6):
skip a candidate `c` when the occurs check would block it or when the pair
`(l, c)` is in the exclusion table. -/
def claimSkip (excl : ExclusionTable) (l c : SExpr) : Bool :=
  occurs l c || excl.containsPair l c

/-- The candidate the claimed behaviour proposes: walk the candidate list,
merely skipping each blocked candidate, and propose the first unblocked
one (the host then case-splits on it). -/
def firstProposal (excl : ExclusionTable) (l : SExpr) : List SExpr → Option SExpr
  | [] => none
  | c :: cs => if claimSkip excl l c then firstProposal excl l cs else some c

/-- The candidate the code actually proposes through `ctx.assume_eq`: a
non-excluded candidate is proposed and `find_branch_candidate` immediately
returns true with it as the last examined candidate, so a false result
means `assume_eq` was never called. -/
def codeProposal (excl : ExclusionTable) (l : SExpr) (rs : List SExpr) : Option SExpr :=
  match find_branch_candidate excl l rs with
  | (true, att) => att.getLast?
  | (false, _) => none

/-- `theory_seq::tightest_prefix` (lines 664-674): skolems named "first"
and "last" over `s`, and the conjunction
`s = first(s) ++ last(s) AND len(last(s)) = 1 AND NOT contains(s, x ++ first(s))`. -/
def tightest_pre (s x : SExpr) : SExpr :=
  let s1 := SExpr.skolem1 .firstT s
  let c := SExpr.skolem1 .lastT s
  .and3 (.eqE s (.concat s1 c))
        (.eqE (.len c) (.intLit 1))
        (.notE (.contains s (.concat x s1)))

/-- `theory_seq::add_indexof_axiom` (lines 733-749): for a term
`i = indexof(s, t)` the four clauses created, in creation order.  The
skolems `x` and `y` carry tags "contains_left" and "contains_right" over
`(s, t)`; the three-argument `mk_concat(x, s, y)` is right-nested. -/
def add_indexof_ax : SExpr → List SExpr
  | .indexof s t =>
      let x := SExpr.skolem2 .cLeftT s t
      let y := SExpr.skolem2 .cRightT s t
      let eqEmpty := SExpr.eqE s .emp
      let cnt := SExpr.contains s t
      [ .or2 cnt (.eqE (.indexof s t) (.intLit (-1))),
        .or3 (.notE cnt) (.notE eqEmpty) (.eqE (.indexof s t) (.intLit 0)),
        .or3 (.notE cnt) eqEmpty (.eqE t (.concat x (.concat s y))),
        .or3 (.notE cnt) eqEmpty (tightest_pre s x) ]
  | _ => []

/-- Boolean evaluation of the propositional structure of the emitted
clauses: the connectives built by `m.mk_or` / `m.mk_and` / `m.mk_not` and
the constant true evaluate structurally, every other term is an atom whose
truth value the valuation `al` assigns. -/
def evalB (al : SExpr → Bool) : SExpr → Bool
  | .notE a => !evalB al a
  | .or2 a b => evalB al a || evalB al b
  | .or3 a b c => evalB al a || evalB al b || evalB al c
  | .and3 a b c => evalB al a && evalB al b && evalB al c
  | .trueE => true
  | e => al e

/-- Test fixture for the C6 counterexample: a canonizer that rewrites the
variable 0 to the one-character string literal and leaves everything else
unchanged, with no witnesses. -/
def exCanon : SExpr → SExpr × Dep :=
  fun e => (if e = .var 0 then .str [0] else e, Dep.empty)

/-- Test fixture for the C6 counterexample: a reducer that echoes the
canonized pair as its single subproblem. -/
def reduceEcho : SExpr → SExpr → Option (List (SExpr × SExpr)) :=
  fun a b => some [(a, b)]

/-- Test fixture for the C4 counterexample: the head variable, a
left-selector skolem over the string literal "ab".  Its selector-stripped
form is the string itself, so `occurs` fires on the string atom although
the variable occurs in none of that atom's prefix candidates. -/
def lCex : SExpr := .skolem1 .leftT (.str [97, 98])

/-- Test fixture for the C4 counterexample: an exclusion table containing
exactly the pair of `lCex` with the empty sequence. -/
def cexExcl : ExclusionTable :=
  ExclusionTable.update ⟨fun _ => false, [], []⟩ lCex .emp

/-- Test fixture for the C7 witness: a two-edge solution chain
`var 0 -> var 1 -> var 2`. -/
def solMapEx : SolutionMap :=
  { map := fun x =>
      if x = .var 0 then some (.var 1, Dep.leaf ⟨0, .var 0⟩ ⟨1, .var 1⟩)
      else if x = .var 1 then some (.var 2, Dep.leaf ⟨2, .var 1⟩ ⟨3, .var 2⟩)
      else none,
    updates := [],
    limit := [] }

/-- Invariant relating the pre-push state `s0` to any state `s` reached
from `push_scope_eh s0` by operations of `Op`: each backtrackable sub-store
carries exactly the trail data `pop_scope_eh` needs to restore `s0`. -/
def ScopeInv (s0 s : ThState) : Prop :=
  (∃ nr, s.recs = nr ++ (TrailRec.valAxHead s0.axqHead :: s0.recs) ∧
     undoIneqs nr s.ineqs = s0.ineqs ∧
     undoAxq nr s.axq = s0.axq ∧
     undoInc nr s.incomplete = s0.incomplete) ∧
  s.marks = s0.recs.length :: s0.marks ∧
  s.rep.limit = s0.rep.updates.length :: s0.rep.limit ∧
  (∃ nu, s.rep.updates = nu ++ s0.rep.updates ∧ undoMapFold nu s.rep.map = s0.rep.map) ∧
  s.exclude.limit = s0.exclude.entries.length :: s0.exclude.limit ∧
  (∃ np, s.exclude.entries = s0.exclude.entries ++ np ∧
     (∀ x, x ∉ np → s.exclude.table x = s0.exclude.table x) ∧
     (∀ q ∈ np, s.exclude.table q = true ∧ s0.exclude.table q = false)) ∧
  (∃ top, s.eqs = top :: s0.eqs)

/-- Idempotence of selector stripping. -/
theorem strip_idem : ∀ a : SExpr, strip (strip a) = strip a
  | .skolem1 t x => by
      by_cases h : t = SkTag.leftT ∨ t = SkTag.rightT <;> simp [strip, h, strip_idem x]
  | .skolem2 t x y => by
      by_cases h : t = SkTag.leftT ∨ t = SkTag.rightT <;> simp [strip, h, strip_idem x]
  | .var _ => rfl
  | .emp => rfl
  | .str _ => rfl
  | .unitSeq _ => rfl
  | .concat _ _ => rfl
  | .len _ => rfl
  | .pre _ _ => rfl
  | .suf _ _ => rfl
  | .contains _ _ => rfl
  | .indexof _ _ => rfl
  | .replace _ _ _ => rfl
  | .extract _ _ _ => rfl
  | .inRe _ _ => rfl
  | .intLit _ => rfl
  | .eqE _ _ => rfl
  | .notE _ => rfl
  | .or2 _ _ => rfl
  | .or3 _ _ _ => rfl
  | .and3 _ _ _ => rfl
  | .trueE => rfl

/-- Claim C1: `final_check_eh` runs check_ineqs, simplify_and_solve_eqs,
branch_variable, split_variable in that fixed order and returns FC_CONTINUE
exactly when some phase made progress or the host was observed inconsistent;
with no progress and a consistent host it returns FC_GIVEUP exactly when the
current frame still holds a pending equation or the incompleteness flag is
set, and FC_DONE otherwise. -/
theorem final_check_dispatch (p : FCPhases) :
    (final_check_eh p = .FC_CONTINUE ↔
       (p.check_ineqs_ok = false ∨ p.simp_progress = true ∨ p.incons1 = true ∨
        p.branch_progress = true ∨ split_variable = true ∨ p.incons2 = true)) ∧
    (final_check_eh p = .FC_GIVEUP ↔
       (p.check_ineqs_ok = true ∧ p.simp_progress = false ∧ p.incons1 = false ∧
        p.branch_progress = false ∧ p.incons2 = false ∧
        (0 < p.pending ∨ p.incomplete = true))) ∧
    (final_check_eh p = .FC_DONE ↔
       (p.check_ineqs_ok = true ∧ p.simp_progress = false ∧ p.incons1 = false ∧
        p.branch_progress = false ∧ p.incons2 = false ∧
        p.pending = 0 ∧ p.incomplete = false)) := by
  obtain ⟨c, sp, i1, b, i2, n, inc⟩ := p
  cases c <;> cases sp <;> cases i1 <;> cases b <;> cases i2 <;> cases inc <;> cases n <;>
    simp [final_check_eh, split_variable]

/-- Claim C9: `check_ineqs` scans the recorded inequation atoms in order;
at the first atom whose canonized form is the constant true it reports that
atom's literal tagged with the canonicalization witnesses and returns early
(result false); if no atom canonizes to true it reports no conflict.  The
loop never modifies the inequation list. -/
theorem check_ineqs_first_refutation (canon : SExpr → SExpr × Dep) (l : List SExpr) :
    check_ineqs canon l =
      match l.find? (fun a => (canon a).1 == SExpr.trueE) with
      | none => (true, none)
      | some a => (false, some (a, (canon a).2)) := by
  induction l with
  | nil => rfl
  | cons a tl ih =>
      by_cases h : (canon a).1 = SExpr.trueE
      · have hb : ((canon a).1 == SExpr.trueE) = true := by simp [h]
        simp [check_ineqs, List.find?, h, hb]
      · have hb : ((canon a).1 == SExpr.trueE) = false := by simp [h]
        simp [check_ineqs, List.find?, h, hb, ih]

/-- Counterexample for claim C3: the occurs check misses an occurrence that
sits below a left-selector applied to a concatenation.  For v = var 0 and
t = left_select(concat(var 0, var 1)), `occurs` answers false although v
appears in t along a selector-then-concat path. -/
theorem occurs_nested_selector_cex :
    occurs (.var 0) (.skolem1 .leftT (.concat (.var 0) (.var 1))) = false ∧
    appearsSel (.var 0) (.skolem1 .leftT (.concat (.var 0) (.var 1))) = true := by
  decide

/-- Claim C3 (amended): `occurs(v, t)` is true exactly when some atom of
t's concatenation decomposition has the same selector-stripped form as v;
hence when `occurs` returns false, v does not appear in t as the stripped
form of any concat atom.  Occurrences strictly below a selector applied to
a concatenation inside t are not detected. -/
theorem occurs_iff_stripped_atom (a b : SExpr) :
    occurs a b = (concatAtoms b).any fun c => strip a == strip c := by
  induction b generalizing a with
  | concat e1 e2 ih1 ih2 =>
      simp [occurs, concatAtoms, ih1, ih2, strip_idem, List.any_append]
  | _ => simp [occurs, concatAtoms]

/-- Counterexample for claim C6: `simplify_eq` compares the reducer output
against the ORIGINAL sides, not the canonized sides.  With a canonizer that
rewrites var 0 and a reducer that echoes the canonized pair unchanged,
simplify_eq reports progress although the reducer returned exactly the
single canonized pair. -/
theorem simplify_eq_canonized_echo_cex :
    reduceEcho (exCanon (.var 0)).1 (exCanon (.var 1)).1 =
        some [((exCanon (.var 0)).1, (exCanon (.var 1)).1)] ∧
    simplify_eq exCanon reduceEcho (.var 0) (.var 1) Dep.empty ≠ .noProgress := by
  decide

/-- Claim C6 (amended): `simplify_eq(L, R, D)` reports no progress exactly
when the reducer returns the single pair consisting of the two ORIGINAL
sides (L, R) unchanged; a conflict carries D joined with the
canonicalization witnesses, and in every other case the subproblems each
carry that same joined dependency (they are pushed onto the current frame
and the caller pre_process_eqs removes the original equation). -/
theorem simplify_eq_progress_iff (canon : SExpr → SExpr × Dep)
    (reduce : SExpr → SExpr → Option (List (SExpr × SExpr))) (l r : SExpr) (d : Dep) :
    (simplify_eq canon reduce l r d = .noProgress ↔
       reduce (canon l).1 (canon r).1 = some [(l, r)]) ∧
    (simplify_eq canon reduce l r d =
       match reduce (canon l).1 (canon r).1 with
       | none => .conflict (mkJoin (mkJoin d (canon l).2) (canon r).2)
       | some pairs =>
           if pairs = [(l, r)] then .noProgress
           else .subProblems
             (pairs.map fun q => (q.1, q.2, mkJoin (mkJoin d (canon l).2) (canon r).2))) := by
  rcases h : reduce (canon l).1 (canon r).1 with _ | pairs
  · simp [simplify_eq, h]
  · rcases pairs with _ | ⟨q, tl⟩
    · simp [simplify_eq, h]
    · rcases tl with _ | ⟨q2, tl2⟩
      · by_cases hq : q = (l, r)
        · subst hq; simp [simplify_eq, h]
        · have hne : ¬(l = q.1 ∧ r = q.2) := by
            rintro ⟨h1, h2⟩
            exact hq (by cases q; simp_all)
          have hlist : ¬([q] = [(l, r)]) := by
            simp only [List.cons.injEq, and_true]
            exact fun hh => hq hh
          simp [simplify_eq, h, hne, hlist]
      · simp [simplify_eq, h]

/-- Claim C5 (code evaluation): `new_eq_eh` appends the pending equation
tagged with the leaf dependency of the e-node pair, but enqueues NO
length-of-concat lemma: `new_eq_len_concat` always returns before creating
anything because its `f_len` is never assigned, so the lemma queue, the
trail and the incompleteness flag are untouched. -/
theorem new_eq_no_len_concat_ax (s : ThState) (n1 n2 : ENode) :
    (new_eq_eh s n1 n2).axq = s.axq ∧
    (new_eq_eh s n1 n2).recs = s.recs ∧
    (new_eq_eh s n1 n2).incomplete = s.incomplete ∧
    (new_eq_eh s n1 n2).eqs =
      (if n1 = n2 then s.eqs
       else (s.eqs.headD [] ++ [(n1.owner, n2.owner, Dep.leaf n1 n2)]) :: s.eqs.tail) := by
  by_cases h : n1 = n2 <;> simp [new_eq_eh, new_eq_len_concat, h]

/-- Claim C8: for a term i = indexof(s, t) the factory creates exactly four
clauses: not-contains implies i = -1; contains and s empty imply i = 0;
contains and s nonempty imply t = x ++ s ++ y; and contains and s nonempty
imply the tightest-prefix constraint, whose skolems are first(s) and
last(s) with s = first(s) ++ last(s), length(last(s)) = 1, and
not contains(s, x ++ first(s)). -/
theorem indexof_ax_clauses (s t : SExpr) (al : SExpr → Bool) :
    add_indexof_ax (.indexof s t) =
      [ .or2 (.contains s t) (.eqE (.indexof s t) (.intLit (-1))),
        .or3 (.notE (.contains s t)) (.notE (.eqE s .emp)) (.eqE (.indexof s t) (.intLit 0)),
        .or3 (.notE (.contains s t)) (.eqE s .emp)
          (.eqE t (.concat (.skolem2 .cLeftT s t) (.concat s (.skolem2 .cRightT s t)))),
        .or3 (.notE (.contains s t)) (.eqE s .emp) (tightest_pre s (.skolem2 .cLeftT s t)) ] ∧
    tightest_pre s (.skolem2 .cLeftT s t) =
      .and3 (.eqE s (.concat (.skolem1 .firstT s) (.skolem1 .lastT s)))
            (.eqE (.len (.skolem1 .lastT s)) (.intLit 1))
            (.notE (.contains s (.concat (.skolem2 .cLeftT s t) (.skolem1 .firstT s)))) ∧
    ((add_indexof_ax (.indexof s t)).all (evalB al) = true ↔
       ((al (.contains s t) = false → al (.eqE (.indexof s t) (.intLit (-1))) = true) ∧
        (al (.contains s t) = true → al (.eqE s .emp) = true →
           al (.eqE (.indexof s t) (.intLit 0)) = true) ∧
        (al (.contains s t) = true → al (.eqE s .emp) = false →
           al (.eqE t (.concat (.skolem2 .cLeftT s t)
                (.concat s (.skolem2 .cRightT s t)))) = true) ∧
        (al (.contains s t) = true → al (.eqE s .emp) = false →
           (al (.eqE s (.concat (.skolem1 .firstT s) (.skolem1 .lastT s))) = true ∧
            al (.eqE (.len (.skolem1 .lastT s)) (.intLit 1)) = true ∧
            al (.contains s (.concat (.skolem2 .cLeftT s t) (.skolem1 .firstT s))) = false)))) := by
  refine ⟨rfl, rfl, ?_⟩
  cases h1 : al (.contains s t) <;> cases h2 : al (.eqE s .emp) <;>
    simp [add_indexof_ax, tightest_pre, evalB, h1, h2, and_assoc]

/-- Claim C10: internalizing a term whose head is not among concatenation,
string literal, empty, unit, prefix, suffix, contains, skolem sets the
incompleteness flag; in particular every length, indexof, replace, extract
and regex-membership term has such a head; and while the flag is set
final_check_eh can return FC_GIVEUP or FC_CONTINUE but never FC_DONE. -/
theorem internalize_incompleteness (s : ThState) (t : SExpr) (p : FCPhases)
    (h : supportedHead t = false) (hp : p.incomplete = true) :
    (internalize_term s t).incomplete = true ∧
    final_check_eh p ≠ .FC_DONE ∧
    (∀ e, supportedHead (.len e) = false) ∧
    (∀ a b, supportedHead (.indexof a b) = false) ∧
    (∀ a b c, supportedHead (.replace a b c) = false) ∧
    (∀ a b c, supportedHead (.extract a b c) = false) ∧
    (∀ a b, supportedHead (.inRe a b) = false) := by
  refine ⟨?_, ?_, fun _ => rfl, fun _ _ => rfl, fun _ _ _ => rfl, fun _ _ _ => rfl,
    fun _ _ => rfl⟩
  · by_cases hi : s.incomplete <;> simp [internalize_term, set_incomplete, h, hi]
  · obtain ⟨c, sp, i1, b, i2, n, inc⟩ := p
    simp only at hp
    subst hp
    cases c <;> cases sp <;> cases i1 <;> cases b <;> cases i2 <;>
      simp [final_check_eh, split_variable]

/-- Witness for claim C10's theorem at a concrete input: internalizing a
length term in the initial state sets the flag, and a final-check
observation with the flag set cannot answer FC_DONE. -/
theorem internalize_incompleteness_witness :
    supportedHead (.len (.var 0)) = false ∧
    (FCPhases.mk true false false false false 0 true).incomplete = true ∧
    ((internalize_term initState (.len (.var 0))).incomplete = true ∧
     final_check_eh (FCPhases.mk true false false false false 0 true) ≠ .FC_DONE ∧
     (∀ e, supportedHead (.len e) = false) ∧
     (∀ a b, supportedHead (.indexof a b) = false) ∧
     (∀ a b c, supportedHead (.replace a b c) = false) ∧
     (∀ a b c, supportedHead (.extract a b c) = false) ∧
     (∀ a b, supportedHead (.inRe a b) = false)) :=
  ⟨rfl, rfl, internalize_incompleteness initState (.len (.var 0))
    (FCPhases.mk true false false false false 0 true) rfl rfl⟩

/-- The find loop follows exactly the chain reachable from its argument:
with enough fuel it ends on a term with no entry, accumulates the join of
the traversed witnesses onto the accumulator, and counts the edges. -/
theorem findAux_chain (m : SMap) :
    ∀ (fuel : Nat) (e : SExpr) (d0 : Dep) (n0 : Nat),
      (chainFrom m fuel e).length < fuel →
      SolutionMap.findAux m fuel e d0 n0 =
        (((chainFrom m fuel e).map Prod.fst).getLastD e,
         (chainFrom m fuel e).foldl (fun d p => mkJoin d p.2) d0,
         n0 + (chainFrom m fuel e).length) ∧
      m (((chainFrom m fuel e).map Prod.fst).getLastD e) = none := by
  intro fuel
  induction fuel with
  | zero => intro e d0 n0 h; exact absurd h (by omega)
  | succ f ih =>
      intro e d0 n0 h
      cases hm : m e with
      | none => simp [chainFrom, hm, SolutionMap.findAux]
      | some v =>
          obtain ⟨r, d2⟩ := v
          have hc : chainFrom m (f + 1) e = (r, d2) :: chainFrom m f r := by
            simp [chainFrom, hm]
          rw [hc] at h
          have h' : (chainFrom m f r).length < f := by
            simpa using h
          obtain ⟨ha, hb⟩ := ih r (mkJoin d0 d2) (n0 + 1) h'
          rw [hc]
          constructor
          · simp only [SolutionMap.findAux, hm, List.map_cons, List.getLastD_cons,
              List.foldl_cons, List.length_cons]
            rw [ha]
            refine congrArg _ (congrArg _ ?_)
            omega
          · rw [List.map_cons, List.getLastD_cons]
            exact hb

/-- Claim C7: `solution_map::find` walks the chain from its argument to a
term with no entry, returns the join of the witnesses of all traversed
edges, and when at least two edges were traversed it path-compresses by
update-ing the original key to the terminal replacement under the joined
witness, whose insertion leaves an INS record on top of the trail. -/
theorem find_path_compress (s : SolutionMap) (fuel : Nat) (e : SExpr)
    (h : (chainFrom s.map fuel e).length < fuel) :
    s.map (((chainFrom s.map fuel e).map Prod.fst).getLastD e) = none ∧
    s.find fuel e =
      (((chainFrom s.map fuel e).map Prod.fst).getLastD e,
       (chainFrom s.map fuel e).foldl (fun d p => mkJoin d p.2) Dep.empty,
       if 1 < (chainFrom s.map fuel e).length then
         s.update e (((chainFrom s.map fuel e).map Prod.fst).getLastD e)
           ((chainFrom s.map fuel e).foldl (fun d p => mkJoin d p.2) Dep.empty)
       else s) ∧
    (s.update e (((chainFrom s.map fuel e).map Prod.fst).getLastD e)
        ((chainFrom s.map fuel e).foldl (fun d p => mkJoin d p.2) Dep.empty)).updates.head? =
      some (.INS, e, ((chainFrom s.map fuel e).map Prod.fst).getLastD e,
        (chainFrom s.map fuel e).foldl (fun d p => mkJoin d p.2) Dep.empty) := by
  obtain ⟨ha, hb⟩ := findAux_chain s.map fuel e Dep.empty 0 h
  refine ⟨hb, ?_, ?_⟩
  · simp only [SolutionMap.find, ha, Nat.zero_add]
    split <;> simp
  · cases hu : s.map e <;> simp [SolutionMap.update, SolutionMap.add_trail, hu]

/-- Witness for claim C7's theorem: on the two-edge chain
`var 0 -> var 1 -> var 2` with fuel 5, find reaches var 2, joins the two
edge witnesses, and path-compresses the original key. -/
theorem find_path_compress_witness :
    (chainFrom solMapEx.map 5 (.var 0)).length < 5 ∧
    (solMapEx.map (((chainFrom solMapEx.map 5 (.var 0)).map Prod.fst).getLastD (.var 0)) =
        none ∧
     solMapEx.find 5 (.var 0) =
       (((chainFrom solMapEx.map 5 (.var 0)).map Prod.fst).getLastD (.var 0),
        (chainFrom solMapEx.map 5 (.var 0)).foldl (fun d p => mkJoin d p.2) Dep.empty,
        if 1 < (chainFrom solMapEx.map 5 (.var 0)).length then
          solMapEx.update (.var 0)
            (((chainFrom solMapEx.map 5 (.var 0)).map Prod.fst).getLastD (.var 0))
            ((chainFrom solMapEx.map 5 (.var 0)).foldl (fun d p => mkJoin d p.2) Dep.empty)
        else solMapEx) ∧
     (solMapEx.update (.var 0)
         (((chainFrom solMapEx.map 5 (.var 0)).map Prod.fst).getLastD (.var 0))
         ((chainFrom solMapEx.map 5 (.var 0)).foldl (fun d p => mkJoin d p.2)
           Dep.empty)).updates.head? =
       some (.INS, .var 0,
         ((chainFrom solMapEx.map 5 (.var 0)).map Prod.fst).getLastD (.var 0),
         (chainFrom solMapEx.map 5 (.var 0)).foldl (fun d p => mkJoin d p.2) Dep.empty)) :=
  ⟨by decide, find_path_compress solMapEx 5 (.var 0) (by decide)⟩

/-- The candidate loop `tryList` examines its list in order and stops at the
first candidate accepted by `assume_equality`. -/
theorem tryList_spec (excl : ExclusionTable) (l : SExpr) (cs : List SExpr) :
    tryList excl l cs =
      (cs.any (assume_equality excl l),
       takeThroughFirst (assume_equality excl l) cs) := by
  induction cs with
  | nil => rfl
  | cons c cs ih =>
      by_cases h : assume_equality excl l c = true <;>
        simp [tryList, takeThroughFirst, h, ih]

/-- When no element satisfies `p`, `takeThroughFirst` keeps the whole list. -/
theorem takeThroughFirst_all_neg (p : SExpr → Bool) (cs : List SExpr)
    (h : cs.any p = false) : takeThroughFirst p cs = cs := by
  induction cs with
  | nil => rfl
  | cons c cs ih =>
      simp only [List.any_cons, Bool.or_eq_false_iff] at h
      simp [takeThroughFirst, h.1, ih h.2]

/-- When some element of the first part satisfies `p`, `takeThroughFirst`
never reaches the second part. -/
theorem takeThroughFirst_append_pos (p : SExpr → Bool) (l1 l2 : List SExpr)
    (h : l1.any p = true) :
    takeThroughFirst p (l1 ++ l2) = takeThroughFirst p l1 := by
  induction l1 with
  | nil => simp at h
  | cons c cs ih =>
      by_cases hc : p c = true
      · simp [takeThroughFirst, hc]
      · simp only [List.any_cons, hc, Bool.false_or] at h
        simp [takeThroughFirst, hc, ih h]

/-- When no element of the first part satisfies `p`, `takeThroughFirst`
passes it through whole. -/
theorem takeThroughFirst_append_neg (p : SExpr → Bool) (l1 l2 : List SExpr)
    (h : l1.any p = false) :
    takeThroughFirst p (l1 ++ l2) = l1 ++ takeThroughFirst p l2 := by
  induction l1 with
  | nil => rfl
  | cons c cs ih =>
      simp only [List.any_cons, Bool.or_eq_false_iff] at h
      simp [takeThroughFirst, h.1, ih h.2]

/-- The branch-candidate loop examines exactly the occurs-truncated
candidate sequence, stopping at the first non-excluded candidate. -/
theorem fbcLoop_spec (excl : ExclusionTable) (l : SExpr) (rs : List SExpr) :
    ∀ (j : Nat) (v0 : SExpr),
      fbcLoop excl l rs j v0 =
        ((candidatesGuarded l rs j v0).any (assume_equality excl l),
         takeThroughFirst (assume_equality excl l) (candidatesGuarded l rs j v0)) := by
  induction rs with
  | nil => intro j v0; rfl
  | cons rj rest ih =>
      intro j v0
      by_cases ho : occurs l rj = true
      · simp [fbcLoop, candidatesGuarded, ho, takeThroughFirst]
      · rw [show fbcLoop excl l (rj :: rest) j v0 =
              (if occurs l rj then (false, [])
               else
                 match tryList excl l (preCands v0 rj) with
                 | (true, att) => (true, att)
                 | (false, att) =>
                     let v0' := if j = 0 then rj else .concat v0 rj
                     if assume_equality excl l v0' then (true, att ++ [v0'])
                     else
                       match fbcLoop excl l rest (j + 1) v0' with
                       | (b, att') => (b, att ++ v0' :: att')) from rfl]
        rw [show candidatesGuarded l (rj :: rest) j v0 =
              (if occurs l rj then []
               else
                 let v0' := if j = 0 then rj else .concat v0 rj
                 preCands v0 rj ++ v0' :: candidatesGuarded l rest (j + 1) v0') from rfl]
        simp only [ho, if_false, Bool.false_eq_true]
        rw [tryList_spec]
        cases hpre : (preCands v0 rj).any (assume_equality excl l) with
        | true =>
            simp [List.any_append, hpre, takeThroughFirst_append_pos _ _ _ hpre]
        | false =>
            by_cases hv : assume_equality excl l (if j = 0 then rj else .concat v0 rj) = true
            · simp [List.any_append, hpre, hv, takeThroughFirst_all_neg _ _ hpre,
                takeThroughFirst_append_neg _ _ _ hpre, takeThroughFirst]
            · simp [List.any_append, hpre, hv, ih (j + 1) _,
                takeThroughFirst_all_neg _ _ hpre,
                takeThroughFirst_append_neg _ _ _ hpre, takeThroughFirst]

/-- Claim C4 (amended): for a variable head, `find_branch_candidate`
examines the empty-sequence candidate and then the candidate sequence
TRUNCATED at the first opposite-side atom on which the occurs check fires
(an occurs hit aborts the whole enumeration for that equation); within that
range an exclusion-table hit is merely skipped, every following candidate
is still examined, and the first non-excluded candidate is proposed. -/
theorem branch_candidate_enumeration (excl : ExclusionTable) (l : SExpr)
    (rs : List SExpr) :
    find_branch_candidate excl l rs =
      if is_var l = false then (false, [])
      else
        ((SExpr.emp :: candidatesGuarded l rs 0 .emp).any (assume_equality excl l),
         takeThroughFirst (assume_equality excl l)
           (SExpr.emp :: candidatesGuarded l rs 0 .emp)) := by
  by_cases hv : is_var l = false
  · simp [find_branch_candidate, hv]
  · by_cases he : assume_equality excl l .emp = true
    · simp [find_branch_candidate, hv, he, takeThroughFirst]
    · simp [find_branch_candidate, hv, he, fbcLoop_spec, takeThroughFirst]

/-- Counterexample for claim C4: head variable lCex = left_sel("ab"),
opposite side rs = ["ab"], with (lCex, empty) in the exclusion table.  The
empty candidate is blocked (excluded) and skipped by claim and code alike.
Under the claim the remaining candidates are still proposed: the next one,
empty ++ "a" (the one-character prefix candidate of the string atom), is
neither blocked by the occurs check nor excluded, so the claimed behaviour
proposes it.  The code instead hits `occurs(lCex, "ab")` on the atom
(lCex's selector-stripped form IS the string "ab") and `return false`
abandons the whole enumeration: no candidate is ever proposed.  So a
blocked candidate is not merely skipped; the remaining candidate
alignments are not proposed afterwards. -/
theorem branch_skip_claim_cex :
    is_var lCex = true ∧
    claimSkip cexExcl lCex SExpr.emp = true ∧
    occurs lCex (.str [97, 98]) = true ∧
    claimSkip cexExcl lCex (SExpr.concat .emp (.str [97])) = false ∧
    firstProposal cexExcl lCex (SExpr.emp :: candidatesFull [.str [97, 98]] 0 .emp) =
      some (SExpr.concat .emp (.str [97])) ∧
    codeProposal cexExcl lCex [.str [97, 98]] = none := by
  decide

/-- Replaying a concatenation of solution-map trail records replays the
newer part first. -/
theorem undoMapFold_append (a b : List (MapUpd × SExpr × SExpr × Dep)) (m : SMap) :
    undoMapFold (a ++ b) m = undoMapFold b (undoMapFold a m) := by
  induction a generalizing m with
  | nil => rfl
  | cons e tl ih => simp [undoMapFold, ih]

/-- `solution_map::update` leaves trail records whose replay restores the
map exactly, and never touches the scope marks. -/
theorem update_trail_shape (s : SolutionMap) (e r : SExpr) (d : Dep) :
    ∃ ent, (s.update e r d).updates = ent ++ s.updates ∧
      undoMapFold ent (s.update e r d).map = s.map ∧
      (s.update e r d).limit = s.limit := by
  cases hm : s.map e with
  | none =>
      refine ⟨[(.INS, e, r, d)], ?_, ?_, ?_⟩
      · simp [SolutionMap.update, hm, SolutionMap.add_trail]
      · funext x
        by_cases hx : x = e
        · subst hx
          simp [SolutionMap.update, hm, SolutionMap.add_trail, undoMapFold, undoEntry,
            mapErase]
        · simp [SolutionMap.update, hm, SolutionMap.add_trail, undoMapFold, undoEntry,
            mapErase, mapInsert, hx]
      · simp [SolutionMap.update, hm, SolutionMap.add_trail]
  | some v =>
      refine ⟨[(.INS, e, r, d), (.DEL, e, v.1, v.2)], ?_, ?_, ?_⟩
      · simp [SolutionMap.update, hm, SolutionMap.add_trail]
      · funext x
        by_cases hx : x = e
        · subst hx
          simp [SolutionMap.update, hm, SolutionMap.add_trail, undoMapFold, undoEntry,
            mapErase, mapInsert]
        · simp [SolutionMap.update, hm, SolutionMap.add_trail, undoMapFold, undoEntry,
            mapErase, mapInsert, hx]
      · simp [SolutionMap.update, hm, SolutionMap.add_trail]

/-- `solution_map::find` either leaves the store unchanged or performs one
trail-correct `update`; in both cases replaying its new trail records
restores the map, and the marks are untouched. -/
theorem find_trail_shape (s : SolutionMap) (fuel : Nat) (e : SExpr) :
    ∃ ent, (s.find fuel e).2.2.updates = ent ++ s.updates ∧
      undoMapFold ent (s.find fuel e).2.2.map = s.map ∧
      (s.find fuel e).2.2.limit = s.limit := by
  rcases hf : SolutionMap.findAux s.map fuel e Dep.empty 0 with ⟨r, d, n⟩
  by_cases hn : 1 < n
  · have : (s.find fuel e).2.2 = s.update e r d := by
      simp [SolutionMap.find, hf, hn]
    rw [this]
    exact update_trail_shape s e r d
  · have : (s.find fuel e).2.2 = s := by
      simp [SolutionMap.find, hf, hn]
    rw [this]
    exact ⟨[], rfl, rfl, rfl⟩

/-- Pointwise description of the erase loop of
`exclusion_table::pop_scope`. -/
theorem eraseFold_apply (l : List (SExpr × SExpr)) (f : SExpr × SExpr → Bool)
    (x : SExpr × SExpr) :
    eraseFold l f x = if x ∈ l then false else f x := by
  induction l generalizing f with
  | nil => simp [eraseFold]
  | cons p tl ih =>
      by_cases hx : x = p
      · subst hx
        simp [eraseFold, ih, eraseP]
      · simp [eraseFold, ih, eraseP, hx]

/-- `undoList` only changes the four fields tracked by the generic trail,
each as an independent fold over the records. -/
theorem undoList_spec (l : List TrailRec) (s : ThState) :
    undoList l s =
      { s with ineqs := undoIneqs l s.ineqs,
               axq := undoAxq l s.axq,
               incomplete := undoInc l s.incomplete,
               axqHead := undoAH l s.axqHead } := by
  induction l generalizing s with
  | nil => rfl
  | cons r tl ih =>
      cases r <;> simp [undoList, applyUndo, undoIneqs, undoAxq, undoInc, undoAH, ih]

/-- `undoIneqs` over an append. -/
theorem undoIneqs_append (a b : List TrailRec) (x : List SExpr) :
    undoIneqs (a ++ b) x = undoIneqs b (undoIneqs a x) := by
  induction a generalizing x with
  | nil => rfl
  | cons r tl ih => cases r <;> simp [undoIneqs, ih]

/-- `undoAxq` over an append. -/
theorem undoAxq_append (a b : List TrailRec) (x : List SExpr) :
    undoAxq (a ++ b) x = undoAxq b (undoAxq a x) := by
  induction a generalizing x with
  | nil => rfl
  | cons r tl ih => cases r <;> simp [undoAxq, ih]

/-- `undoInc` over an append. -/
theorem undoInc_append (a b : List TrailRec) (x : Bool) :
    undoInc (a ++ b) x = undoInc b (undoInc a x) := by
  induction a generalizing x with
  | nil => rfl
  | cons r tl ih => cases r <;> simp [undoInc, ih]

/-- A trailing `value_trail` record for the cursor restores it regardless of
the current value. -/
theorem undoAH_val (l : List TrailRec) (n h : Nat) :
    undoAH (l ++ [.valAxHead n]) h = n := by
  induction l generalizing h with
  | nil => rfl
  | cons r tl ih => cases r <;> simp [undoAH, ih]

/-- `exclusion_table::update` preserves the restore data: the trail suffix
grows by at most the one pair just inserted, which was absent before the
push. -/
theorem excl_update_inv (t0 t : ExclusionTable) (np : List (SExpr × SExpr))
    (hent : t.entries = t0.entries ++ np)
    (h1 : ∀ x, x ∉ np → t.table x = t0.table x)
    (h2 : ∀ q ∈ np, t.table q = true ∧ t0.table q = false)
    (e r : SExpr) :
    ∃ np', (t.update e r).entries = t0.entries ++ np' ∧
      (∀ x, x ∉ np' → (t.update e r).table x = t0.table x) ∧
      (∀ q ∈ np', (t.update e r).table q = true ∧ t0.table q = false) ∧
      (t.update e r).limit = t.limit := by
  by_cases hqq : (normPair e r).1 = (normPair e r).2
  · have hupd : t.update e r = t := by
      simp [ExclusionTable.update, hqq]
    rw [hupd]
    exact ⟨np, hent, h1, h2, rfl⟩
  · by_cases hmem : t.table (normPair e r) = true
    · have hupd : t.update e r = t := by
        simp [ExclusionTable.update, hqq, hmem]
      rw [hupd]
      exact ⟨np, hent, h1, h2, rfl⟩
    · have hupd : t.update e r =
          { t with entries := t.entries ++ [normPair e r],
                   table := fun x => if x = normPair e r then true else t.table x } := by
        simp [ExclusionTable.update, hqq, hmem]
      have hnotin : normPair e r ∉ np := by
        intro hin
        exact hmem (h2 _ hin).1
      rw [hupd]
      refine ⟨np ++ [normPair e r], ?_, ?_, ?_, rfl⟩
      · rw [hent, List.append_assoc]
      · intro x hx
        simp only [List.mem_append, List.mem_singleton, not_or] at hx
        simp only [if_neg hx.2]
        exact h1 x hx.1
      · intro q hq
        simp only [List.mem_append, List.mem_singleton] at hq
        rcases hq with hq | hq
        · refine ⟨?_, (h2 q hq).2⟩
          by_cases hqe : q = normPair e r
          · simp [hqe]
          · simp only [if_neg hqe]
            exact (h2 q hq).1
        · subst hq
          refine ⟨by simp, ?_⟩
          rw [← h1 _ hnotin]
          simpa using hmem

/-- `set_incomplete` preserves the scope invariant. -/
theorem scopeInv_set_incomplete (s0 s : ThState) (h : ScopeInv s0 s) :
    ScopeInv s0 (set_incomplete s) := by
  obtain ⟨⟨nr, hrecs, hineq, haxq, hinc⟩, hmarks, hrlim, ⟨nu, hru, hrm⟩, helim,
    ⟨np, hent, htab1, htab2⟩, ⟨top, heqs⟩⟩ := h
  by_cases hi : s.incomplete = true
  · have : set_incomplete s = s := by simp [set_incomplete, hi]
    rw [this]
    exact ⟨⟨nr, hrecs, hineq, haxq, hinc⟩, hmarks, hrlim, ⟨nu, hru, hrm⟩, helim,
      ⟨np, hent, htab1, htab2⟩, ⟨top, heqs⟩⟩
  · have : set_incomplete s =
        { s with recs := TrailRec.valIncomplete s.incomplete :: s.recs,
                 incomplete := true } := by
      simp [set_incomplete, hi]
    rw [this]
    refine ⟨⟨TrailRec.valIncomplete s.incomplete :: nr, ?_, ?_, ?_, ?_⟩, hmarks, hrlim,
      ⟨nu, hru, hrm⟩, helim, ⟨np, hent, htab1, htab2⟩, ⟨top, heqs⟩⟩
    · simp [hrecs]
    · simpa [undoIneqs] using hineq
    · simpa [undoAxq] using haxq
    · simpa [undoInc] using hinc

/-- Every operation of `Op` preserves the scope invariant. -/
theorem scopeInv_step (s0 s : ThState) (op : Op) (h : ScopeInv s0 s) :
    ScopeInv s0 (applyOp s op) := by
  obtain ⟨⟨nr, hrecs, hineq, haxq, hinc⟩, hmarks, hrlim, ⟨nu, hru, hrm⟩, helim,
    ⟨np, hent, htab1, htab2⟩, ⟨top, heqs⟩⟩ := h
  cases op with
  | mapUpdate e r d =>
      obtain ⟨ent, h1, h2, h3⟩ := update_trail_shape s.rep e r d
      refine ⟨⟨nr, hrecs, hineq, haxq, hinc⟩, hmarks, ?_, ⟨ent ++ nu, ?_, ?_⟩, helim,
        ⟨np, hent, htab1, htab2⟩, ⟨top, heqs⟩⟩
      · show (s.rep.update e r d).limit = _
        rw [h3, hrlim]
      · show (s.rep.update e r d).updates = _
        rw [h1, hru, List.append_assoc]
      · show undoMapFold (ent ++ nu) (s.rep.update e r d).map = _
        rw [undoMapFold_append, h2, hrm]
  | mapFind fuel e =>
      obtain ⟨ent, h1, h2, h3⟩ := find_trail_shape s.rep fuel e
      refine ⟨⟨nr, hrecs, hineq, haxq, hinc⟩, hmarks, ?_, ⟨ent ++ nu, ?_, ?_⟩, helim,
        ⟨np, hent, htab1, htab2⟩, ⟨top, heqs⟩⟩
      · show ((s.rep.find fuel e).2.2).limit = _
        rw [h3, hrlim]
      · show ((s.rep.find fuel e).2.2).updates = _
        rw [h1, hru, List.append_assoc]
      · show undoMapFold (ent ++ nu) ((s.rep.find fuel e).2.2).map = _
        rw [undoMapFold_append, h2, hrm]
  | newEq n1 n2 =>
      by_cases hn : n1 = n2
      · have hid : applyOp s (.newEq n1 n2) = s := by
          simp [applyOp, new_eq_eh, hn]
        rw [hid]
        exact ⟨⟨nr, hrecs, hineq, haxq, hinc⟩, hmarks, hrlim, ⟨nu, hru, hrm⟩, helim,
          ⟨np, hent, htab1, htab2⟩, ⟨top, heqs⟩⟩
      · have hne : applyOp s (.newEq n1 n2) =
            { s with eqs := (s.eqs.headD [] ++ [(n1.owner, n2.owner, Dep.leaf n1 n2)]) ::
                s.eqs.tail } := by
          simp [applyOp, new_eq_eh, new_eq_len_concat, hn]
        rw [hne]
        refine ⟨⟨nr, hrecs, hineq, haxq, hinc⟩, hmarks, hrlim, ⟨nu, hru, hrm⟩, helim,
          ⟨np, hent, htab1, htab2⟩,
          ⟨top ++ [(n1.owner, n2.owner, Dep.leaf n1 n2)], ?_⟩⟩
        rw [heqs]
        simp
  | newDiseq n1 n2 =>
      obtain ⟨np', h1, h2, h3, h4⟩ :=
        excl_update_inv s0.exclude s.exclude np hent htab1 htab2 n1.owner n2.owner
      refine ⟨⟨TrailRec.pbIneqs :: nr, ?_, ?_, ?_, ?_⟩, hmarks, hrlim, ⟨nu, hru, hrm⟩,
        ?_, ⟨np', h1, h2, h3⟩, ⟨top, heqs⟩⟩
      · show TrailRec.pbIneqs :: s.recs = _
        simp [hrecs]
      · show undoIneqs (TrailRec.pbIneqs :: nr)
            (s.ineqs ++ [SExpr.eqE n1.owner n2.owner]) = s0.ineqs
        simpa [undoIneqs] using hineq
      · simpa [undoAxq] using haxq
      · simpa [undoInc] using hinc
      · show (s.exclude.update n1.owner n2.owner).limit = _
        rw [h4, helim]
  | setIncomplete t =>
      exact scopeInv_set_incomplete s0 s
        ⟨⟨nr, hrecs, hineq, haxq, hinc⟩, hmarks, hrlim, ⟨nu, hru, hrm⟩, helim,
          ⟨np, hent, htab1, htab2⟩, ⟨top, heqs⟩⟩
  | createAx e =>
      refine ⟨⟨TrailRec.pbAxq :: nr, ?_, ?_, ?_, ?_⟩, hmarks, hrlim, ⟨nu, hru, hrm⟩,
        helim, ⟨np, hent, htab1, htab2⟩, ⟨top, heqs⟩⟩
      · show TrailRec.pbAxq :: s.recs = _
        simp [hrecs]
      · simpa [undoIneqs] using hineq
      · show undoAxq (TrailRec.pbAxq :: nr) (s.axq ++ [e]) = s0.axq
        simpa [undoAxq] using haxq
      · simpa [undoInc] using hinc
  | propagate =>
      exact ⟨⟨nr, hrecs, hineq, haxq, hinc⟩, hmarks, hrlim, ⟨nu, hru, hrm⟩, helim,
        ⟨np, hent, htab1, htab2⟩, ⟨top, heqs⟩⟩
  | internalize t =>
      by_cases hs : supportedHead t = true
      · have hid : applyOp s (.internalize t) = s := by
          simp [applyOp, internalize_term, hs]
        rw [hid]
        exact ⟨⟨nr, hrecs, hineq, haxq, hinc⟩, hmarks, hrlim, ⟨nu, hru, hrm⟩, helim,
          ⟨np, hent, htab1, htab2⟩, ⟨top, heqs⟩⟩
      · have hid : applyOp s (.internalize t) = set_incomplete s := by
          simp [applyOp, internalize_term, hs]
        rw [hid]
        exact scopeInv_set_incomplete s0 s
          ⟨⟨nr, hrecs, hineq, haxq, hinc⟩, hmarks, hrlim, ⟨nu, hru, hrm⟩, helim,
            ⟨np, hent, htab1, htab2⟩, ⟨top, heqs⟩⟩

/-- `push_scope_eh` establishes the scope invariant. -/
theorem scopeInv_push (s0 : ThState) : ScopeInv s0 (push_scope_eh s0) := by
  refine ⟨⟨[], rfl, rfl, rfl, rfl⟩, rfl, rfl, ⟨[], rfl, rfl⟩, rfl,
    ⟨[], by simp [push_scope_eh, ExclusionTable.pushScope], fun x _ => rfl,
      fun q hq => absurd hq (List.not_mem_nil q)⟩,
    ⟨s0.eqs.headD [], rfl⟩⟩

/-- The scope invariant holds after any sequence of operations following a
push. -/
theorem scopeInv_ops (s0 : ThState) (ops : List Op) :
    ∀ s, ScopeInv s0 s → ScopeInv s0 (ops.foldl applyOp s) := by
  induction ops with
  | nil => intro s h; exact h
  | cons op tl ih => intro s h; exact ih _ (scopeInv_step s0 s op h)

/-- One solution-map scope pop undoes exactly the trail suffix of the
scope. -/
theorem popScope1_restore (r0 : SolutionMap) (m : SMap)
    (nu : List (MapUpd × SExpr × SExpr × Dep))
    (hmap : undoMapFold nu m = r0.map) :
    SolutionMap.popScope1
      ⟨m, nu ++ r0.updates, r0.updates.length :: r0.limit⟩ = r0 := by
  obtain ⟨m0, u0, l0⟩ := r0
  simp only at hmap
  simp only [SolutionMap.popScope1]
  have h1 : (nu ++ u0).length - u0.length = nu.length := by simp
  rw [h1]
  have h2 : nu.length = (nu : List (MapUpd × SExpr × SExpr × Dep)).length := rfl
  rw [List.take_left, List.drop_left, hmap]

/-- One exclusion-table scope pop erases exactly the pairs added in the
scope. -/
theorem exclPop_restore (t0 : ExclusionTable) (tb : SExpr × SExpr → Bool)
    (np : List (SExpr × SExpr))
    (h1 : ∀ x, x ∉ np → tb x = t0.table x)
    (h2 : ∀ q ∈ np, t0.table q = false) :
    ExclusionTable.popScope1
      ⟨tb, t0.entries ++ np, t0.entries.length :: t0.limit⟩ = t0 := by
  obtain ⟨tb0, e0, l0⟩ := t0
  simp only at h1 h2
  simp only [ExclusionTable.popScope1]
  rw [List.drop_left, List.take_left]
  have htab : eraseFold np tb = tb0 := by
    funext x
    rw [eraseFold_apply]
    by_cases hx : x ∈ np
    · simp [hx, (h2 x hx).symm]
    · simp [hx, h1 x hx]
  rw [htab]

/-- From the scope invariant, one `pop_scope_eh` restores the pre-push
state exactly. -/
theorem pop_restores (s0 s : ThState) (h : ScopeInv s0 s) : pop_scope_eh s = s0 := by
  obtain ⟨⟨nr, hrecs, hineq, haxq, hinc⟩, hmarks, hrlim, ⟨nu, hru, hrm⟩, helim,
    ⟨np, hent, htab1, htab2⟩, ⟨top, heqs⟩⟩ := h
  have hk : s.recs.length - s.marks.headD 0 = nr.length + 1 := by
    rw [hmarks, hrecs]
    simp [List.length_append]
    omega
  have hsplit : s.recs = (nr ++ [TrailRec.valAxHead s0.axqHead]) ++ s0.recs := by
    rw [hrecs]
    simp
  have hlen : nr.length + 1 = (nr ++ [TrailRec.valAxHead s0.axqHead]).length := by simp
  have htake : s.recs.take (nr.length + 1) = nr ++ [TrailRec.valAxHead s0.axqHead] := by
    rw [hsplit, hlen, List.take_left]
  have hdrop : s.recs.drop (nr.length + 1) = s0.recs := by
    rw [hsplit, hlen, List.drop_left]
  have hrep : SolutionMap.popScope1 s.rep = s0.rep := by
    have h' := popScope1_restore s0.rep s.rep.map nu hrm
    rw [← hru, ← hrlim] at h'
    exact h'
  have hexc : ExclusionTable.popScope1 s.exclude = s0.exclude := by
    have h' := exclPop_restore s0.exclude s.exclude.table np htab1
      (fun q hq => (htab2 q hq).2)
    rw [← hent, ← helim] at h'
    exact h'
  have hundo : undoList (s.recs.take (nr.length + 1)) s =
      { s with ineqs := s0.ineqs, axq := s0.axq,
               incomplete := s0.incomplete, axqHead := s0.axqHead } := by
    rw [htake, undoList_spec, undoIneqs_append, undoAxq_append, undoInc_append,
      hineq, haxq, hinc, undoAH_val]
    rfl
  show (let mark := s.marks.headD 0
        let k := s.recs.length - mark
        let s1 := undoList (s.recs.take k) s
        { s1 with recs := s1.recs.drop k,
                  marks := s1.marks.tail,
                  rep := SolutionMap.popScope1 s1.rep,
                  exclude := ExclusionTable.popScope1 s1.exclude,
                  eqs := s1.eqs.tail }) = s0
  simp only [hk, hundo]
  rw [hdrop, hrep, hexc, heqs, hmarks]
  rfl

/-- Claim C2: scope reversibility.  For any sequence of operations on the
core's stores performed after `push_scope_eh`, one `pop_scope_eh(1)`
restores the observable contents of every backtrackable sub-store (solution
map, exclusion table, pending-equation frames, inequation list, lemma queue
and cursor, incompleteness flag, trail stack) to exactly the pre-push
state. -/
theorem scope_reversibility (s0 : ThState) (ops : List Op) :
    pop_scope_eh (ops.foldl applyOp (push_scope_eh s0)) = s0 :=
  pop_restores s0 _ (scopeInv_ops s0 ops _ (scopeInv_push s0))
